import Mathlib

/-!
# Verification of matchfetch23 (src/index.js)

Shallow embedding of the tree-flattening, hierarchy-building, aggregation,
haplogroup-extraction and batch-enrichment code of `src/index.js`, together
with proofs about the embedded definitions.

Conventions used throughout the embedding:
* JS strings are Lean `String`s; string algorithms are written over `String.data`
  (lists of characters) so that every definition reduces in the kernel.
* An optional / possibly-`undefined` JS field is an `Option`.
* A JS number is modelled exactly as an unnormalised fraction `Frac`
  (an integer numerator and a positive denominator); `JSNum := Option Frac`
  uses `none` for NaN.  Binary-floating-point rounding error is not modelled:
  arithmetic is exact.  `parseFloat` is modelled for decimal notation
  (optional leading whitespace, optional sign, digits with an optional
  fractional part, longest-prefix); exponents and the `Infinity` literal are
  not modelled.
* JS objects used as dictionaries are association lists in key-insertion
  order: assignment to an existing key replaces the value in place,
  assignment to a fresh key appends it.
-/

namespace MatchFetch

/-! ## JS string primitives -/

/-- Truthiness of an optional JS string field: `undefined`, `null` and `""`
are falsy, every other string is truthy. -/
def truthyS : Option String → Bool
  | none => false
  | some s => !(s == "")

/-- Model of `String.prototype.trim`: drop whitespace from both ends. -/
def trimJS (s : String) : String :=
  String.mk (((s.data.dropWhile Char.isWhitespace).reverse.dropWhile
    Char.isWhitespace).reverse)

/-- Model of `String.prototype.includes sub`: some suffix of `s` starts
with `sub`. -/
def strContains (s sub : String) : Bool :=
  s.data.tails.any (fun t => sub.data.isPrefixOf t)

/-- Model of `idx = s.indexOf(':'); idx !== -1 ? s.substring(idx+1) : s`:
the part of `s` after the first colon, or all of `s` when there is none. -/
def afterFirstColon (s : String) : String :=
  match s.data.dropWhile (fun c => !(c == ':')) with
  | [] => s
  | _ :: rest => String.mk rest

/-! ## Exact JS numbers -/

/-- Unnormalised fraction representing an exact JS number `num / den`.
The embedding only ever constructs fractions with `0 < den`. -/
structure Frac where
  num : Int
  den : Int
  deriving DecidableEq, Repr

instance : OfNat Frac n := ⟨⟨(n : Int), 1⟩⟩

/-- Exact addition of fractions. -/
def Frac.add (a b : Frac) : Frac := ⟨a.num * b.den + b.num * a.den, a.den * b.den⟩

/-- Exact multiplication of a fraction by a natural number. -/
def Frac.mulNat (a : Frac) (n : Nat) : Frac := ⟨a.num * (n : Int), a.den⟩

/-- Exact division of a fraction by a positive natural number. -/
def Frac.divNat (a : Frac) (n : Nat) : Frac := ⟨a.num, a.den * (n : Int)⟩

/-- The rational value denoted by a fraction. -/
def Frac.val (a : Frac) : ℚ := (a.num : ℚ) / (a.den : ℚ)

/-- Strict positivity of the denoted value (for fractions with a positive
denominator this is positivity of the numerator). -/
def Frac.isPos (a : Frac) : Bool := decide (0 < a.num)

/-- A JS number: `none` is NaN, `some f` is the exact finite value `f`. -/
abbrev JSNum := Option Frac

/-- NaN-propagating addition (`a + b`). -/
def jsAdd : JSNum → JSNum → JSNum
  | some a, some b => some (a.add b)
  | _, _ => none

/-- Model of `values.reduce((a, b) => a + b, 0)`. -/
def jsSum (l : List JSNum) : JSNum := l.foldl jsAdd (some (0 : Frac))

/-- Model of `x / n` for a JS number `x` and a match count `n`.  Division by
zero yields a non-finite JS number; in the aggregation pipeline this branch
is unreachable (an averaged node only exists when at least one match was
processed), it is present for totality only. -/
def jsDiv (a : JSNum) (n : Nat) : JSNum :=
  match a with
  | some f => if n = 0 then none else some (f.divNat n)
  | none => none

/-- Decimal digit string of `m` left-padded with zeros to width `d`. -/
def padZeros (d : Nat) (m : Nat) : String :=
  let s := Nat.repr m
  if d ≤ s.length then s else String.mk (List.replicate (d - s.length) '0') ++ s

/-- Model of `Number.prototype.toFixed d` on an exact value `a/b` with
`0 < b`: the integer nearest to `a/b * 10^d`, ties toward `+∞`
(ECMA-262: "if there are two such n, pick the larger n"), printed with
`d` digits after the point. -/
def Frac.toFixed (d : Nat) (f : Frac) : String :=
  let a : Int := f.num * ((10 : Int) ^ d)
  let b : Int := f.den
  let n : Int := Int.fdiv (2 * a + b) (2 * b)
  let m : Nat := n.natAbs
  let core : String :=
    if d = 0 then Nat.repr m
    else Nat.repr (m / 10 ^ d) ++ "." ++ padZeros d (m % 10 ^ d)
  if n < 0 then "-" ++ core else core

/-- Lift of `toFixed` to JS numbers; `(NaN).toFixed(d)` is `"NaN"`. -/
def jsToFixed (d : Nat) : JSNum → String
  | some f => f.toFixed d
  | none => "NaN"

/-- Model of JS `parseFloat` on an unsigned decimal suffix: the initial
digits, optionally followed by a point and more digits; `none` when not a
single digit was consumed. -/
def parseUnsigned (cs : List Char) : Option Frac :=
  let intDs := cs.takeWhile Char.isDigit
  let rest := cs.dropWhile Char.isDigit
  let fracDs := match rest with
    | '.' :: r => r.takeWhile Char.isDigit
    | _ => []
  if intDs.isEmpty && fracDs.isEmpty then none
  else
    let iv : Nat := intDs.foldl (fun a c => 10 * a + (c.toNat - '0'.toNat)) 0
    let fv : Nat := fracDs.foldl (fun a c => 10 * a + (c.toNat - '0'.toNat)) 0
    some ⟨(iv : Int) * ((10 : Int) ^ fracDs.length) + (fv : Int),
          (10 : Int) ^ fracDs.length⟩

/-- Model of JS `parseFloat` (decimal notation, see the file header):
skip leading whitespace, read an optional sign, then an unsigned decimal
prefix; `none` models NaN. -/
def parseFloatJS (s : String) : JSNum :=
  match s.data.dropWhile Char.isWhitespace with
  | '-' :: cs => (parseUnsigned cs).map (fun f => ⟨-f.num, f.den⟩)
  | '+' :: cs => parseUnsigned cs
  | cs => parseUnsigned cs

/-! ## Haplogroup extraction (src/index.js:543-562, also 317-337)

The source iterates over the (profile-filtered) compute-result entries and,
depending on `h.name`, assigns `haplogroups.ydna` or `haplogroups.mtdna`.
A later entry with the same name overwrites an earlier one. -/

/-- A single raw compute-result entry: its `name` and
`result.haplogroup_id`. -/
structure HapResult where
  name : String
  haplogroup_id : String
  deriving DecidableEq, Repr

/-- One iteration of the `profileHaplogroups.forEach` loop of
`extractAncestryDataForMatch` (src/index.js:548-562): the state is the pair
`(haplogroups.ydna, haplogroups.mtdna)`, each `none` while unassigned. -/
def hapStep (acc : Option String × Option String) (h : HapResult) :
    Option String × Option String :=
  if h.name == "yhaplo_2023:haplogroup" then
    (some (if truthyS (some h.haplogroup_id) && strContains h.haplogroup_id "FEMALE"
           then ""
           else afterFirstColon h.haplogroup_id), acc.2)
  else if h.name == "mthaplo_build_7:haplogroup" then
    (acc.1, some (afterFirstColon h.haplogroup_id))
  else acc

/-- The haplogroup-extraction loop over the profile-filtered result list. -/
def extractHaplogroups (rs : List HapResult) : Option String × Option String :=
  rs.foldl hapStep (none, none)

/-! ## Batch enrichment (src/index.js:379-397 and 404-452)

`fetchMatchDetails` starts from the copied base record; its `try` block
around the ancestry fetch has exactly three observable outcomes, abstracted
as an oracle value: the response was OK and extraction produced a value
(`ancestry` is set), the response was not OK (the `if (response.ok)` guard
skips everything, nothing is set), or the block threw (the `catch` sets
`ancestry_error`).  The click-handler loop (src/index.js:379-397) pushes one
output record per input match, in order; its own `catch` produces the same
record shape as the inner one (base fields plus `ancestry_error`). -/

/-- The base fields of a match-list entry that are copied verbatim into the
enriched record (src/index.js:408-424); they are opaque to the claims and
are represented by the identifying profile id. -/
structure MatchRec where
  relative_profile_id : String
  deriving DecidableEq, Repr

/-- Oracle describing what the effects inside the `try` block of
`fetchMatchDetails` did for one match. -/
inductive FetchOutcome (α : Type) where
  | ok (a : α)
  | httpNotOk
  | thrown (msg : String)
  deriving DecidableEq, Repr

/-- An enriched match record: the copied base fields plus the optional
`ancestry` and `ancestry_error` fields. -/
structure EnrichedRec (α : Type) where
  base : MatchRec
  ancestry : Option α
  ancestry_error : Option String
  deriving DecidableEq, Repr

/-- Model of `fetchMatchDetails` (src/index.js:404-452) under the effect
oracle: `ok a` sets `ancestry := a`; a non-2xx response sets neither field;
a throw is caught and sets `ancestry_error := msg`. -/
def fetchMatchDetails (α : Type) (m : MatchRec) : FetchOutcome α → EnrichedRec α
  | .ok a => { base := m, ancestry := some a, ancestry_error := none }
  | .httpNotOk => { base := m, ancestry := none, ancestry_error := none }
  | .thrown msg => { base := m, ancestry := none, ancestry_error := some msg }

/-- Model of the enrichment loop (src/index.js:379-397): one output record
per input match, in input order, each produced by `fetchMatchDetails`. -/
def runBatch (α : Type) (ms : List (MatchRec × FetchOutcome α)) :
    List (EnrichedRec α) :=
  ms.map (fun p => fetchMatchDetails α p.1 p.2)

/-! ### Helper lemmas for fold characterisations -/

/-- The last element of a filtered cons, split on the tail's result. -/
theorem filter_getLast?_cons {α : Type} (p : α → Bool) (a : α) (l : List α) :
    ((a :: l).filter p).getLast? =
      match (l.filter p).getLast? with
      | some b => some b
      | none => if p a then some a else none := by
  rw [List.filter_cons]
  cases hl : (l.filter p).getLast? with
  | none =>
    have hnil : l.filter p = [] := by
      cases hfp : l.filter p with
      | nil => rfl
      | cons x xs => rw [hfp] at hl; simp at hl
    rw [hnil]
    by_cases h : p a <;> simp [h]
  | some b =>
    have hne : l.filter p ≠ [] := by
      intro hfp; rw [hfp] at hl; simp at hl
    obtain ⟨x, xs, hfp⟩ := List.exists_cons_of_ne_nil hne
    by_cases h : p a
    · rw [if_pos h, hfp, List.getLast?_cons_cons, ← hfp, hl]
    · rw [if_neg h, hl]

/-- Characterisation of the y-DNA component of the haplogroup fold: it is
determined by the last paternal-line entry, and by the initial state when
there is none. -/
theorem extractHap_fst (rs : List HapResult) (acc : Option String × Option String) :
    (rs.foldl hapStep acc).1 =
      match (rs.filter (fun h => h.name == "yhaplo_2023:haplogroup")).getLast? with
      | some y => some (if truthyS (some y.haplogroup_id) && strContains y.haplogroup_id "FEMALE"
                        then "" else afterFirstColon y.haplogroup_id)
      | none => acc.1 := by
  induction rs generalizing acc with
  | nil => rfl
  | cons h t ih =>
    rw [List.foldl_cons, ih (hapStep acc h),
      filter_getLast?_cons (fun h => h.name == "yhaplo_2023:haplogroup") h t]
    cases hlast : (t.filter (fun h => h.name == "yhaplo_2023:haplogroup")).getLast? with
    | some y => simp
    | none =>
      by_cases hy : h.name == "yhaplo_2023:haplogroup"
      · simp [hy, hapStep]
      · by_cases hm : h.name == "mthaplo_build_7:haplogroup" <;>
          simp [hy, hm, hapStep]

/-- Characterisation of the mtDNA component of the haplogroup fold. -/
theorem extractHap_snd (rs : List HapResult) (acc : Option String × Option String) :
    (rs.foldl hapStep acc).2 =
      match (rs.filter (fun h => h.name == "mthaplo_build_7:haplogroup")).getLast? with
      | some m => some (afterFirstColon m.haplogroup_id)
      | none => acc.2 := by
  induction rs generalizing acc with
  | nil => rfl
  | cons h t ih =>
    rw [List.foldl_cons, ih (hapStep acc h),
      filter_getLast?_cons (fun h => h.name == "mthaplo_build_7:haplogroup") h t]
    cases hlast : (t.filter (fun h => h.name == "mthaplo_build_7:haplogroup")).getLast? with
    | some m => simp
    | none =>
      by_cases hy : h.name == "yhaplo_2023:haplogroup"
      · have hym : ¬(h.name == "mthaplo_build_7:haplogroup") := by
          simp only [beq_iff_eq] at hy ⊢; rw [hy]; decide
        simp [hy, hym, hapStep]
      · by_cases hm : h.name == "mthaplo_build_7:haplogroup" <;>
          simp [hy, hm, hapStep]

/-! ### Claim theorems: C7, C8, C10 -/

/-- C7: for every raw result list, if the paternal-line entry (the last
entry named `yhaplo_2023:haplogroup`) has a raw value containing the
female-marker substring `FEMALE` then `ydna` is `""` — the colon rule is
never consulted in that branch — and otherwise `ydna` is the substring
after the first colon (the whole value when there is no colon); `mtdna` is
always the substring after the first colon of the maternal-line entry's
value (the whole value when there is no colon). -/
theorem c7_haplogroup_extraction (rs : List HapResult) :
    (∀ y, (rs.filter (fun h => h.name == "yhaplo_2023:haplogroup")).getLast? = some y →
      (extractHaplogroups rs).1 =
        some (if strContains y.haplogroup_id "FEMALE" = true
              then "" else afterFirstColon y.haplogroup_id)) ∧
    (∀ m, (rs.filter (fun h => h.name == "mthaplo_build_7:haplogroup")).getLast? = some m →
      (extractHaplogroups rs).2 = some (afterFirstColon m.haplogroup_id)) := by
  constructor
  · intro y hy
    rw [extractHaplogroups, extractHap_fst, hy]
    by_cases hf : strContains y.haplogroup_id "FEMALE" = true
    · have hne : (y.haplogroup_id == "") = false := by
        cases heq : y.haplogroup_id == "" with
        | false => rfl
        | true =>
          have h0 : y.haplogroup_id = "" := by simpa using heq
          rw [h0] at hf
          exact absurd hf (by decide)
      simp [truthyS, hne, hf]
    · have hf' : strContains y.haplogroup_id "FEMALE" = false := by
        simpa using hf
      simp [truthyS, hf']
  · intro m hm
    rw [extractHaplogroups, extractHap_snd, hm]

/-- Witness for C7 at a concrete input: a paternal value containing the
female marker and a colon-delimited suffix gives `ydna = ""`, a paternal
value without the marker is stripped after the first colon, and `mtdna` is
always stripped after the first colon. -/
theorem c7_haplogroup_extraction_witness :
    (extractHaplogroups
      [⟨"yhaplo_2023:haplogroup", "FEMALE:R1b"⟩,
       ⟨"mthaplo_build_7:haplogroup", "mthaplo:H1a"⟩]).1 = some "" ∧
    (extractHaplogroups
      [⟨"yhaplo_2023:haplogroup", "FEMALE:R1b"⟩,
       ⟨"mthaplo_build_7:haplogroup", "mthaplo:H1a"⟩]).2 = some "H1a" := by
  constructor
  · have h := (c7_haplogroup_extraction
      [⟨"yhaplo_2023:haplogroup", "FEMALE:R1b"⟩,
       ⟨"mthaplo_build_7:haplogroup", "mthaplo:H1a"⟩]).1
      ⟨"yhaplo_2023:haplogroup", "FEMALE:R1b"⟩ (by decide)
    rw [h]
    decide
  · have h := (c7_haplogroup_extraction
      [⟨"yhaplo_2023:haplogroup", "FEMALE:R1b"⟩,
       ⟨"mthaplo_build_7:haplogroup", "mthaplo:H1a"⟩]).2
      ⟨"mthaplo_build_7:haplogroup", "mthaplo:H1a"⟩ (by decide)
    rw [h]
    decide

/-- C8: the batch keeps one entry per input match in input order (the
output length equals the input length and the i-th output is produced from
the i-th input); a match whose enrichment threw carries `ancestry_error`
and no `ancestry`; a match whose fetch succeeded carries a populated
`ancestry` and no `ancestry_error`; failures are local, so the batch never
aborts early. -/
theorem c8_batch_partial_failure {α : Type} (ms : List (MatchRec × FetchOutcome α)) :
    (runBatch α ms).length = ms.length ∧
    (∀ (i : Nat) (p : MatchRec × FetchOutcome α), ms[i]? = some p →
      (runBatch α ms)[i]? = some (fetchMatchDetails α p.1 p.2)) ∧
    (∀ m msg, fetchMatchDetails α m (.thrown msg) =
      { base := m, ancestry := none, ancestry_error := some msg }) ∧
    (∀ m a, fetchMatchDetails α m (.ok a) =
      { base := m, ancestry := some a, ancestry_error := none }) := by
  refine ⟨by simp [runBatch], ?_, fun m msg => rfl, fun m a => rfl⟩
  intro i p hp
  simp [runBatch, List.getElem?_map, hp]

/-- Witness for C8: the spec's example — five matches where the third
ancestry fetch throws — yields five entries; entry 3 has `ancestry_error`
set and no `ancestry`, the others have populated `ancestry`. -/
theorem c8_batch_partial_failure_witness :
    (runBatch String
      [(⟨"m1"⟩, .ok "a1"), (⟨"m2"⟩, .ok "a2"), (⟨"m3"⟩, .thrown "network error"),
       (⟨"m4"⟩, .ok "a4"), (⟨"m5"⟩, .ok "a5")]).length = 5 ∧
    (runBatch String
      [(⟨"m1"⟩, .ok "a1"), (⟨"m2"⟩, .ok "a2"), (⟨"m3"⟩, .thrown "network error"),
       (⟨"m4"⟩, .ok "a4"), (⟨"m5"⟩, .ok "a5")])[2]? =
      some { base := ⟨"m3"⟩, ancestry := none, ancestry_error := some "network error" } ∧
    (runBatch String
      [(⟨"m1"⟩, .ok "a1"), (⟨"m2"⟩, .ok "a2"), (⟨"m3"⟩, .thrown "network error"),
       (⟨"m4"⟩, .ok "a4"), (⟨"m5"⟩, .ok "a5")])[3]? =
      some { base := ⟨"m4"⟩, ancestry := some "a4", ancestry_error := none } := by
  refine ⟨(c8_batch_partial_failure _).1, ?_, ?_⟩
  · exact (c8_batch_partial_failure _).2.1 2 (⟨"m3"⟩, .thrown "network error") (by decide)
  · exact (c8_batch_partial_failure _).2.1 3 (⟨"m4"⟩, .ok "a4") (by decide)

/-- C10: when the per-match ancestry request completes with a non-2xx
status (no exception), the enriched record keeps the base fields but has
neither an `ancestry` nor an `ancestry_error` field — silent failure —
whereas a thrown error does set `ancestry_error`. -/
theorem c10_silent_http_failure (α : Type) (m : MatchRec) :
    (fetchMatchDetails α m .httpNotOk).ancestry = none ∧
    (fetchMatchDetails α m .httpNotOk).ancestry_error = none ∧
    (fetchMatchDetails α m .httpNotOk).base = m ∧
    ∀ msg, (fetchMatchDetails α m (.thrown msg)).ancestry_error = some msg :=
  ⟨rfl, rfl, rfl, fun _ => rfl⟩

/-! ## Population trees and flattening (src/index.js:233-251 and 466-480)

`extractNodes` walks a population tree; a node is pushed onto the
accumulator when `node.totalPercent && parseFloat(node.totalPercent) > 0 &&
node.id !== 'root'`, and the children are always recursed into.  Pushing
into a shared accumulator in pre-order is the same as emitting the node's
own singleton (or nothing) followed by the children's output in order. -/

/-- A node of the incoming population tree. -/
inductive PTree where
  | mk (id label : String) (totalPercent : Option String) (color : String)
       (parent_id : String) (children : List PTree)

/-- The identifier of a population-tree node. -/
def PTree.id : PTree → String
  | .mk i _ _ _ _ _ => i

/-- The display label of a population-tree node. -/
def PTree.label : PTree → String
  | .mk _ l _ _ _ _ => l

/-- The (optional) percentage string of a population-tree node. -/
def PTree.totalPercent : PTree → Option String
  | .mk _ _ tp _ _ _ => tp

/-- The color of a population-tree node. -/
def PTree.color : PTree → String
  | .mk _ _ _ c _ _ => c

/-- The parent pointer of a population-tree node (`"root"` marks top level). -/
def PTree.parent_id : PTree → String
  | .mk _ _ _ _ p _ => p

/-- The ordered children of a population-tree node. -/
def PTree.children : PTree → List PTree
  | .mk _ _ _ _ _ cs => cs

/-- One flattened entry, as pushed by `extractNodes` (src/index.js:236-242). -/
structure FlatEntry where
  id : String
  label : String
  totalPercent : Option String
  color : String
  parent_id : String
  deriving DecidableEq, Repr

/-- Truthiness of `parseFloat(tp) > 0` (false on NaN, i.e. on a failed
parse). -/
def parsesPos (tp : Option String) : Bool :=
  match parseFloatJS (tp.getD "") with
  | some f => f.isPos
  | none => false

/-- The inclusion test of `extractNodes`:
`node.totalPercent && parseFloat(node.totalPercent) > 0 && node.id !== 'root'`. -/
def includeNode (n : PTree) : Bool :=
  truthyS n.totalPercent && parsesPos n.totalPercent && !(n.id == "root")

/-- The `FlatEntry` pushed for a qualifying node. -/
def nodeEntry (n : PTree) : FlatEntry :=
  ⟨n.id, n.label, n.totalPercent, n.color, n.parent_id⟩

/-- Model of `extractNodes` (src/index.js:233-251): emit the node itself if
it qualifies, then the children's entries in order. -/
def extractNodes : PTree → List FlatEntry
  | .mk i l tp c pid cs =>
    (if includeNode (.mk i l tp c pid cs) then [nodeEntry (.mk i l tp c pid cs)] else []) ++
      (cs.attach.map (fun ch => extractNodes ch.1)).flatten
termination_by t => sizeOf t
decreasing_by
  have h := List.sizeOf_lt_of_mem ch.2
  simp only [PTree.mk.sizeOf_spec]
  omega

/-- The pre-order list of all nodes of a tree (the visit order of
`extractNodes`). -/
def nodesOf : PTree → List PTree
  | .mk i l tp c pid cs =>
    .mk i l tp c pid cs :: (cs.attach.map (fun ch => nodesOf ch.1)).flatten
termination_by t => sizeOf t
decreasing_by
  have h := List.sizeOf_lt_of_mem ch.2
  simp only [PTree.mk.sizeOf_spec]
  omega

/-- Induction over a population tree from induction hypotheses for all
children. -/
theorem PTree.ind (P : PTree → Prop)
    (h : ∀ i l tp c pid cs, (∀ t ∈ cs, P t) → P (.mk i l tp c pid cs)) :
    ∀ t, P t
  | .mk i l tp c pid cs => h i l tp c pid cs (fun t ht => PTree.ind P h t)
termination_by t => sizeOf t
decreasing_by
  have hlt := List.sizeOf_lt_of_mem ht
  simp only [PTree.mk.sizeOf_spec]
  omega

/-- Unfolding of `extractNodes` through the accessors. -/
theorem extractNodes_def (t : PTree) :
    extractNodes t =
      (if includeNode t then [nodeEntry t] else []) ++
        (t.children.map extractNodes).flatten := by
  cases t with
  | mk i l tp c pid cs =>
    rw [extractNodes]
    congr 1
    rw [show (fun (ch : {x // x ∈ cs}) => extractNodes ch.1) =
          (fun ch => extractNodes ch.val) from rfl,
      List.attach_map_val cs extractNodes]
    rfl

/-- Unfolding of `nodesOf` through the accessors. -/
theorem nodesOf_def (t : PTree) :
    nodesOf t = t :: (t.children.map nodesOf).flatten := by
  cases t with
  | mk i l tp c pid cs =>
    rw [nodesOf]
    congr 1
    rw [show (fun (ch : {x // x ∈ cs}) => nodesOf ch.1) =
          (fun ch => nodesOf ch.val) from rfl,
      List.attach_map_val cs nodesOf]
    rfl

/-- Filtering distributes over flattening. -/
theorem filter_flatten' {α : Type} (p : α → Bool) (L : List (List α)) :
    L.flatten.filter p = (L.map (List.filter p)).flatten := by
  induction L with
  | nil => rfl
  | cons a t ih => simp [List.filter_append, ih]

/-- Mapping distributes over flattening. -/
theorem map_flatten' {α β : Type} (f : α → β) (L : List (List α)) :
    L.flatten.map f = (L.map (List.map f)).flatten := by
  induction L with
  | nil => rfl
  | cons a t ih => simp [ih]

/-- Flattened maps agree when the functions agree on the list. -/
theorem flatten_map_congr {α β : Type} {cs : List α} {f g : α → List β}
    (h : ∀ c ∈ cs, f c = g c) : (cs.map f).flatten = (cs.map g).flatten := by
  induction cs with
  | nil => rfl
  | cons a t ih =>
    simp only [List.map_cons, List.flatten_cons]
    rw [h a (List.mem_cons_self a t), ih (fun c hc => h c (List.mem_cons_of_mem a hc))]

/-- The output of `extractNodes` is exactly the pre-order node list,
filtered by the inclusion test and projected to entries. -/
theorem extractNodes_eq_filter (t : PTree) :
    extractNodes t = ((nodesOf t).filter includeNode).map nodeEntry := by
  induction t using PTree.ind with
  | _ i l tp c pid cs ih =>
    rw [extractNodes_def, nodesOf_def, List.filter_cons]
    have hch : (PTree.children (.mk i l tp c pid cs)) = cs := rfl
    rw [hch]
    have hrest : (cs.map extractNodes).flatten =
        ((((PTree.mk i l tp c pid cs).children.map nodesOf).flatten.filter
          includeNode).map nodeEntry) := by
      rw [hch, filter_flatten', map_flatten', List.map_map, List.map_map]
      exact flatten_map_congr (fun ch hc => ih ch hc)
    by_cases hinc : includeNode (.mk i l tp c pid cs)
    · rw [if_pos hinc, if_pos hinc, List.map_cons]
      rw [hch] at hrest
      rw [hrest]
      rfl
    · rw [if_neg hinc, if_neg hinc]
      rw [hch] at hrest
      rw [hrest]
      rfl

/-- Occurrence of `s` as a subtree of `t` (possibly `t` itself). -/
inductive IsSubtree : PTree → PTree → Prop
  | refl (t : PTree) : IsSubtree t t
  | child {s c t : PTree} : c ∈ t.children → IsSubtree s c → IsSubtree s t

/-! ### Claim theorems: C5, C6 -/

/-- C5: a node is emitted by the flattener iff its `totalPercent` is
present and truthy, parses to a value strictly greater than zero (a failed
parse counts as not greater than zero and raises no error), and its `id` is
not the literal `"root"`: the output is exactly the pre-order node list
filtered by that predicate, so in particular the root node is never emitted
at any depth and every emitted entry carries a positive parsed percentage. -/
theorem c5_flatten_inclusion (t : PTree) :
    extractNodes t = ((nodesOf t).filter
      (fun n => truthyS n.totalPercent && parsesPos n.totalPercent &&
        !(n.id == "root"))).map nodeEntry ∧
    ∀ e ∈ extractNodes t, e.id ≠ "root" ∧ truthyS e.totalPercent = true ∧
      ∃ f, parseFloatJS (e.totalPercent.getD "") = some f ∧ f.isPos = true := by
  constructor
  · exact extractNodes_eq_filter t
  · intro e he
    rw [extractNodes_eq_filter t] at he
    obtain ⟨n, hnf, rfl⟩ := List.mem_map.mp he
    obtain ⟨-, hinc⟩ := List.mem_filter.mp hnf
    simp only [includeNode, Bool.and_eq_true, Bool.not_eq_true'] at hinc
    obtain ⟨⟨htr, hpp⟩, hid⟩ := hinc
    refine ⟨?_, htr, ?_⟩
    · show n.id ≠ "root"
      simpa using hid
    · show ∃ f, parseFloatJS (n.totalPercent.getD "") = some f ∧ f.isPos = true
      unfold parsesPos at hpp
      cases hp : parseFloatJS (n.totalPercent.getD "") with
      | none => rw [hp] at hpp; exact absurd hpp (by decide)
      | some f => rw [hp] at hpp; exact ⟨f, rfl, hpp⟩

/-- C6: the emissions of any subtree `s` of `t` form a contiguous block of
the output in which the entry of `s` itself (present exactly when `s`
qualifies) comes first, followed by the blocks of the children of `s` in
their given order — so an emitted ancestor always precedes every emitted
descendant, and the children are recursed into even when `s` itself is
disqualified. -/
theorem c6_preorder_traversal (t s : PTree) (h : IsSubtree s t) :
    ∃ l₁ l₂, extractNodes t =
      l₁ ++ ((if includeNode s then [nodeEntry s] else []) ++
        (s.children.map extractNodes).flatten) ++ l₂ := by
  induction h with
  | refl =>
    refine ⟨[], [], ?_⟩
    rw [extractNodes_def]
    simp
  | child hc hsub ih =>
    rename_i c' t'
    obtain ⟨l₁, l₂, hs⟩ := ih
    obtain ⟨u, v, hcs⟩ := List.append_of_mem hc
    refine ⟨(if includeNode t' then [nodeEntry t'] else []) ++
      (u.map extractNodes).flatten ++ l₁, l₂ ++ (v.map extractNodes).flatten, ?_⟩
    rw [extractNodes_def t', hcs]
    simp only [List.map_append, List.map_cons, List.flatten_append, List.flatten_cons]
    rw [hs]
    simp [List.append_assoc]

/-- Example tree for the C5 witness: a root node (excluded by id), one
qualifying child and one child whose percentage does not parse. -/
def exTreeC5 : PTree :=
  .mk "root" "World" (some "100") "" "" [
    .mk "E" "Europe" (some "40.5") "" "root" [],
    .mk "B" "Bad" (some "abc") "" "root" []]

/-- Witness for C5 at a concrete tree: the qualifying entry is emitted and
satisfies the inclusion predicate; the root node and the unparsable node
are not emitted. -/
theorem c5_flatten_inclusion_witness :
    (⟨"E", "Europe", some "40.5", "", "root"⟩ : FlatEntry).id ≠ "root" ∧
    truthyS (⟨"E", "Europe", some "40.5", "", "root"⟩ : FlatEntry).totalPercent = true ∧
    ∃ f, parseFloatJS ((⟨"E", "Europe", some "40.5", "", "root"⟩ :
      FlatEntry).totalPercent.getD "") = some f ∧ f.isPos = true := by
  refine (c5_flatten_inclusion exTreeC5).2 ⟨"E", "Europe", some "40.5", "", "root"⟩ ?_
  have hev : extractNodes exTreeC5 = [⟨"E", "Europe", some "40.5", "", "root"⟩] := by
    rw [exTreeC5]
    simp only [extractNodes_def, PTree.children, List.map_cons, List.map_nil,
      List.flatten_cons, List.flatten_nil]
    decide
  rw [hev]
  exact List.mem_cons_self _ _

/-- Example subtree for the C6 witness. -/
def exSubC6 : PTree :=
  .mk "E" "Europe" (some "40.5") "" "root" [.mk "NW" "Northwest" (some "20") "" "E" []]

/-- Example tree for the C6 witness. -/
def exTreeC6 : PTree := .mk "root" "World" (some "100") "" "" [exSubC6]

/-- Witness for C6 at a concrete tree and subtree. -/
theorem c6_preorder_traversal_witness :
    ∃ l₁ l₂, extractNodes exTreeC6 =
      l₁ ++ ((if includeNode exSubC6 then [nodeEntry exSubC6] else []) ++
        (exSubC6.children.map extractNodes).flatten) ++ l₂ :=
  c6_preorder_traversal exTreeC6 exSubC6
    (IsSubtree.child (by exact List.mem_cons_self _ _) (IsSubtree.refl _))

/-! ## Hierarchy reconstruction (src/index.js:254-288 and 483-517)

`buildHierarchy` first indexes every entry by `id` (`nodeMap[node.id] =
{...node, regions: {}}`, so a later entry overwrites an earlier one with the
same id), then walks the entries again: an entry with `parent_id === 'root'`
is *assigned* (`result[label] = [node]`), any other entry whose parent id
resolves in the index is *appended* to the parent's `regions[label]`, and an
entry whose parent id does not resolve is dropped.  The resulting object
graph is modelled flatly: `result` maps a label to the ids of the node
objects it holds, and the `regions` of the node object with id `p` map a
label to the ids appended under it (object references are ids, which is
faithful because the shared `nodeMap` object for an id is the unit of
reference identity). -/

/-- Lookup in a JS-object association list (first — and, for objects, only
— binding of the key). -/
def lookupA {κ β : Type} [DecidableEq κ] : List (κ × β) → κ → Option β
  | [], _ => none
  | p :: t, k => if p.1 = k then some p.2 else lookupA t k

/-- Assignment `o[k] = v` on a JS-object association list: replace the
binding in place, or append a fresh key. -/
def setA {κ β : Type} [DecidableEq κ] : List (κ × β) → κ → β → List (κ × β)
  | [], k, v => [(k, v)]
  | p :: t, k, v => if p.1 = k then (k, v) :: t else p :: setA t k v

/-- Push `o[k].push(v)` (with `o[k] = []` first when the key is fresh) on a
JS-object association list of arrays. -/
def pushA {κ β : Type} [DecidableEq κ] : List (κ × List β) → κ → β → List (κ × List β)
  | [], k, v => [(k, [v])]
  | p :: t, k, v => if p.1 = k then (p.1, p.2 ++ [v]) :: t else p :: pushA t k v

/-- Lookup after assignment. -/
theorem lookupA_setA {κ β : Type} [DecidableEq κ] (xs : List (κ × β)) (k k' : κ) (v : β) :
    lookupA (setA xs k v) k' = if k' = k then some v else lookupA xs k' := by
  induction xs with
  | nil =>
    by_cases h : k' = k
    · simp [setA, lookupA, h]
    · have hk : ¬(k = k') := fun hh => h hh.symm
      simp [setA, lookupA, h, hk]
  | cons p t ih =>
    simp only [setA]
    by_cases hp : p.1 = k
    · rw [if_pos hp]
      by_cases h : k' = k
      · simp [lookupA, h]
      · have hk : ¬(k = k') := fun hh => h hh.symm
        have hpk : ¬(p.1 = k') := by rw [hp]; exact hk
        simp [lookupA, hk, hpk, h]
    · rw [if_neg hp]
      by_cases hpk : p.1 = k'
      · have h : ¬(k' = k) := by rw [← hpk]; exact fun hh => hp hh
        simp [lookupA, hpk, h]
      · simp [lookupA, hpk, ih]

/-- Lookup after push. -/
theorem lookupA_pushA {κ β : Type} [DecidableEq κ] (xs : List (κ × List β)) (k k' : κ) (v : β) :
    lookupA (pushA xs k v) k' =
      if k' = k then some ((lookupA xs k).getD [] ++ [v]) else lookupA xs k' := by
  induction xs with
  | nil =>
    by_cases h : k' = k
    · simp [pushA, lookupA, h]
    · have hk : ¬(k = k') := fun hh => h hh.symm
      simp [pushA, lookupA, h, hk]
  | cons p t ih =>
    simp only [pushA]
    by_cases hp : p.1 = k
    · rw [if_pos hp]
      by_cases h : k' = k
      · simp [lookupA, hp, h]
      · have hk : ¬(k = k') := fun hh => h hh.symm
        have hpk : ¬(p.1 = k') := by rw [hp]; exact hk
        simp [lookupA, hk, hpk, h]
    · rw [if_neg hp]
      by_cases hpk : p.1 = k'
      · have h : ¬(k' = k) := by rw [← hpk]; exact fun hh => hp hh
        simp [lookupA, hpk, h]
      · simp [lookupA, hpk, hp, ih]

/-- Pass 1 of `buildHierarchy`: the id index (an entry overwrites an
earlier entry with the same id). -/
def buildNodeMap (nodes : List FlatEntry) : List (String × FlatEntry) :=
  nodes.foldl (fun m n => setA m n.id n) []

/-- The object graph built by pass 2 of `buildHierarchy`: top-level buckets
(`result[label]`) and per-parent region buckets
(`nodeMap[p].regions[label]`), both holding node ids. -/
structure HGraph where
  top : List (String × List String)
  regs : List ((String × String) × List String)
  deriving DecidableEq, Repr

/-- One iteration of pass 2 of `buildHierarchy` (src/index.js:264-278):
a root entry assigns `result[label] = [nodeMap[node.id]]`, a child entry
whose parent resolves appends `nodeMap[node.id]` to
`parent.regions[label]`, anything else is dropped. -/
def hierStep (nm : List (String × FlatEntry)) (st : HGraph) (n : FlatEntry) : HGraph :=
  if n.parent_id == "root" then
    { st with top := setA st.top n.label [n.id] }
  else
    match lookupA nm n.parent_id with
    | some _ => { st with regs := pushA st.regs (n.parent_id, n.label) n.id }
    | none => st

/-- Model of `buildHierarchy` (src/index.js:254-288): the final object
graph (the `delete`-empty-`regions` cleanup only removes empty keys and is
invisible in this representation, where a missing bucket and an empty
bucket coincide). -/
def buildHierarchyG (nodes : List FlatEntry) : HGraph :=
  nodes.foldl (hierStep (buildNodeMap nodes)) ⟨[], []⟩

/-- The array `result[l]` (empty when the key is absent). -/
def topBucket (st : HGraph) (l : String) : List String :=
  (lookupA st.top l).getD []

/-- The array `nodeMap[p].regions[l]` (empty when absent). -/
def regsBucket (st : HGraph) (p l : String) : List String :=
  (lookupA st.regs (p, l)).getD []

/-- Resolution of a parent id against the pass-1 index. -/
def resolves (nodes : List FlatEntry) (p : String) : Bool :=
  (lookupA (buildNodeMap nodes) p).isSome

/-- Pass 1 indexes each id to the last entry carrying it. -/
theorem lookupA_buildNodeMap_fold (ns : List FlatEntry)
    (m : List (String × FlatEntry)) (i : String) :
    lookupA (ns.foldl (fun m n => setA m n.id n) m) i =
      match (ns.filter (fun n => n.id == i)).getLast? with
      | some n => some n
      | none => lookupA m i := by
  induction ns generalizing m with
  | nil => rfl
  | cons n t ih =>
    rw [List.foldl_cons, ih, filter_getLast?_cons (fun n => n.id == i) n t]
    cases hlast : (t.filter (fun n => n.id == i)).getLast? with
    | some y => simp
    | none =>
      by_cases hn : n.id == i
      · have hni : n.id = i := by simpa using hn
        simp [hn, lookupA_setA, hni]
      · have hni : ¬(i = n.id) := by
          intro h
          rw [h] at hn
          simp at hn
        simp [hn, lookupA_setA, hni]

/-- Pass 2, top-level buckets: `result[l]` ends as the singleton holding
the id of the last root entry labelled `l` (assignment overwrites), and is
absent when there is no such entry. -/
theorem top_fold (nm : List (String × FlatEntry)) (ns : List FlatEntry)
    (st : HGraph) (l : String) :
    lookupA (ns.foldl (hierStep nm) st).top l =
      match (ns.filter (fun n => n.parent_id == "root" && n.label == l)).getLast? with
      | some n => some [n.id]
      | none => lookupA st.top l := by
  induction ns generalizing st with
  | nil => rfl
  | cons n t ih =>
    rw [List.foldl_cons, ih,
      filter_getLast?_cons (fun n => n.parent_id == "root" && n.label == l) n t]
    cases hlast : (t.filter (fun n => n.parent_id == "root" && n.label == l)).getLast? with
    | some y => simp
    | none =>
      by_cases hroot : n.parent_id == "root"
      · have hstep : hierStep nm st n = { st with top := setA st.top n.label [n.id] } := by
          simp [hierStep, hroot]
        by_cases hl : n.label == l
        · have hlab : n.label = l := by simpa using hl
          rw [hstep]
          simp [lookupA_setA, hroot, hl, hlab]
        · have hlab : ¬(l = n.label) := by
            intro h
            rw [h] at hl
            simp at hl
          rw [hstep]
          simp [lookupA_setA, hroot, hl, hlab]
      · cases hnm : lookupA nm n.parent_id with
        | none => simp [hierStep, hroot, hnm]
        | some w => simp [hierStep, hroot, hnm]

/-- Pass 2, region buckets: `nodeMap[p].regions[l]` ends as the ids of the
non-root entries with parent `p` and label `l` whose parent resolves, in
input order (push appends, nothing overwrites). -/
theorem regs_fold (nm : List (String × FlatEntry)) (ns : List FlatEntry)
    (st : HGraph) (p l : String) :
    (lookupA (ns.foldl (hierStep nm) st).regs (p, l)).getD [] =
      (lookupA st.regs (p, l)).getD [] ++
        ((ns.filter (fun n => !(n.parent_id == "root") &&
          (lookupA nm n.parent_id).isSome && n.parent_id == p && n.label == l)).map
          (fun n => n.id)) := by
  induction ns generalizing st with
  | nil => simp
  | cons n t ih =>
    rw [List.foldl_cons, ih, List.filter_cons]
    by_cases hroot : n.parent_id == "root"
    · simp [hierStep, hroot]
    · cases hnm : lookupA nm n.parent_id with
      | none => simp [hierStep, hroot, hnm]
      | some w =>
        have hstep : hierStep nm st n =
            { st with regs := pushA st.regs (n.parent_id, n.label) n.id } := by
          simp [hierStep, hroot, hnm]
        by_cases hp : n.parent_id == p
        · by_cases hl : n.label == l
          · have hpe : n.parent_id = p := by simpa using hp
            have hle : n.label = l := by simpa using hl
            have hrootp : ¬(p = "root") := by
              rw [← hpe]
              simpa using hroot
            rw [hstep]
            simp only [lookupA_pushA, hpe, hle, if_pos rfl]
            simp [hroot, hnm, hp, hl, hrootp]
          · have hkeys : ¬((p, l) = (n.parent_id, n.label)) := by
              intro h
              rw [Prod.mk.injEq] at h
              rw [h.2] at hl
              simp at hl
            rw [hstep]
            simp only [lookupA_pushA, if_neg hkeys]
            simp [hl]
        · have hkeys : ¬((p, l) = (n.parent_id, n.label)) := by
            intro h
            rw [Prod.mk.injEq] at h
            rw [h.1] at hp
            simp at hp
          rw [hstep]
          simp only [lookupA_pushA, if_neg hkeys]
          simp [hp]

/-! ### Claim theorem: C9 -/

/-- C9: every top-level bucket of `buildHierarchy` is a singleton — the
assignment `result[label] = [node]` stores exactly one element, namely the
id of the last root entry with that label in input order, so earlier
same-label top-level entries are unreachable from the result — whereas
nested buckets are built by append and retain every qualifying same-label
sibling in input order. -/
theorem c9_top_level_singletons (nodes : List FlatEntry) :
    (∀ l v, lookupA (buildHierarchyG nodes).top l = some v →
      ∃ n, (nodes.filter (fun n => n.parent_id == "root" && n.label == l)).getLast? =
        some n ∧ v = [n.id] ∧ v.length = 1) ∧
    (∀ p l, regsBucket (buildHierarchyG nodes) p l =
      (nodes.filter (fun n => !(n.parent_id == "root") &&
        resolves nodes n.parent_id && n.parent_id == p && n.label == l)).map
        (fun n => n.id)) := by
  constructor
  · intro l v hv
    rw [buildHierarchyG, top_fold] at hv
    cases hlast : (nodes.filter (fun n => n.parent_id == "root" && n.label == l)).getLast? with
    | none => rw [hlast] at hv; exact absurd hv (by simp [lookupA])
    | some n =>
      rw [hlast] at hv
      refine ⟨n, rfl, ?_, ?_⟩
      · cases hv; rfl
      · cases hv; rfl
  · intro p l
    rw [buildHierarchyG, regsBucket, regs_fold]
    simp [lookupA, resolves]

/-- Witness for C9 at a concrete input: of two root entries labelled `X`,
only the last survives (a singleton bucket), while two children of `a`
sharing the label `Y` are both retained. -/
theorem c9_top_level_singletons_witness :
    (∃ n, ([(⟨"a", "X", some "1", "", "root"⟩ : FlatEntry),
            ⟨"b", "X", some "2", "", "root"⟩,
            ⟨"c", "Y", some "1", "", "b"⟩,
            ⟨"d", "Y", some "1", "", "b"⟩].filter
        (fun n => n.parent_id == "root" && n.label == "X")).getLast? = some n ∧
      (["b"] : List String) = [n.id] ∧ (["b"] : List String).length = 1) ∧
    regsBucket (buildHierarchyG
      [⟨"a", "X", some "1", "", "root"⟩, ⟨"b", "X", some "2", "", "root"⟩,
       ⟨"c", "Y", some "1", "", "b"⟩, ⟨"d", "Y", some "1", "", "b"⟩]) "b" "Y" =
      ["c", "d"] := by
  constructor
  · exact (c9_top_level_singletons _).1 "X" ["b"] (by decide)
  · have h := (c9_top_level_singletons
      [⟨"a", "X", some "1", "", "root"⟩, ⟨"b", "X", some "2", "", "root"⟩,
       ⟨"c", "Y", some "1", "", "b"⟩, ⟨"d", "Y", some "1", "", "b"⟩]).2 "b" "Y"
    rw [h]
    decide

/-- The last element of a list is a member. -/
theorem mem_of_getLast?' {α : Type} {l : List α} {a : α} (h : l.getLast? = some a) :
    a ∈ l := by
  induction l with
  | nil => simp at h
  | cons b t ih =>
    cases t with
    | nil =>
      simp at h
      rw [h]
      exact List.mem_cons_self _ _
    | cons c u =>
      rw [List.getLast?_cons_cons] at h
      exact List.mem_cons_of_mem b (ih h)

/-- A function with nodup image on a list is injective on that list. -/
theorem nodupMap_inj {α β : Type} {l : List α} {f : α → β}
    (h : (l.map f).Nodup) :
    ∀ x ∈ l, ∀ y ∈ l, f x = f y → x = y := by
  induction l with
  | nil => intro x hx; cases hx
  | cons a t ih =>
    simp only [List.map_cons, List.nodup_cons] at h
    obtain ⟨hna, hnd⟩ := h
    intro x hx y hy hfe
    rcases List.mem_cons.mp hx with rfl | hx'
    · rcases List.mem_cons.mp hy with rfl | hy'
      · rfl
      · exact absurd (by rw [hfe]; exact List.mem_map_of_mem f hy') hna
    · rcases List.mem_cons.mp hy with rfl | hy'
      · exact absurd (by rw [← hfe]; exact List.mem_map_of_mem f hx') hna
      · exact ih hnd x hx' y hy' hfe

/-- Filtering a list with nodup image for the image of a member yields
exactly that member. -/
theorem filter_eq_singleton_of_nodup_map {α β : Type} [DecidableEq β]
    {l : List α} {f : α → β} (h : (l.map f).Nodup) {a : α} (ha : a ∈ l) :
    l.filter (fun x => f x == f a) = [a] := by
  induction l with
  | nil => cases ha
  | cons b t ih =>
    simp only [List.map_cons, List.nodup_cons] at h
    obtain ⟨hnb, hnd⟩ := h
    rw [List.filter_cons]
    by_cases hab : (f b == f a) = true
    · have hfab : f b = f a := by simpa using hab
      rcases List.mem_cons.mp ha with hab' | ha'
      · rw [if_pos hab]
        have hnil : t.filter (fun x => f x == f a) = [] := by
          rw [List.filter_eq_nil_iff]
          intro x hx
          simp only [beq_iff_eq]
          intro hfx
          exact hnb (by rw [hfab, ← hfx]; exact List.mem_map_of_mem f hx)
        rw [hnil, hab']
      · exact absurd (by rw [hfab]; exact List.mem_map_of_mem f ha') hnb
    · rw [if_neg hab]
      rcases List.mem_cons.mp ha with hab' | ha'
      · exfalso
        apply hab
        rw [hab']
        simp
      · exact ih hnd ha'

/-- Filtering by a conjunction is symmetric in the conjuncts. -/
theorem filter_and_comm {α : Type} (p q : α → Bool) (l : List α) :
    l.filter (fun a => p a && q a) = l.filter (fun a => q a && p a) := by
  induction l with
  | nil => rfl
  | cons a t ih =>
    rw [List.filter_cons, List.filter_cons, ih, Bool.and_comm]

/-! ### Claim theorems: C1 -/

/-- Input refuting C1 as stated: two root entries sharing the label `X`. -/
def nodesC1 : List FlatEntry :=
  [⟨"a", "X", some "1", "", "root"⟩, ⟨"b", "X", some "2", "", "root"⟩]

/-- Counterexample to C1 as stated: entry `a` has `parentId = "root"`, so
the claim puts it top-level under its label `X`; but the assignment
`result[label] = [node]` lets the later root entry `b` overwrite the
bucket, and `a` appears nowhere in the hierarchy (in particular not under
`X`). -/
theorem c1_roundtrip_counterexample :
    topBucket (buildHierarchyG nodesC1) "X" = ["b"] ∧
    ¬("a" ∈ topBucket (buildHierarchyG nodesC1) "X") := by
  constructor
  · decide
  · decide

/-- C1, amended: *provided the entries carry pairwise distinct ids and no
two root entries share a label*, every entry appears in exactly one place
in the hierarchy — a root entry exactly once top-level under its label and
nowhere else, an entry with a resolving parent exactly once in that
parent's bucket for its label and nowhere else, and an entry whose parent
id does not resolve nowhere at all (orphan-drop). -/
theorem c1_roundtrip_amended (nodes : List FlatEntry)
    (hids : (nodes.map FlatEntry.id).Nodup)
    (hlabels : (((nodes.filter (fun n => n.parent_id == "root")).map
      FlatEntry.label)).Nodup) :
    ∀ e ∈ nodes,
      (e.parent_id = "root" →
        topBucket (buildHierarchyG nodes) e.label = [e.id] ∧
        (∀ l, l ≠ e.label → ¬(e.id ∈ topBucket (buildHierarchyG nodes) l)) ∧
        (∀ p l, ¬(e.id ∈ regsBucket (buildHierarchyG nodes) p l))) ∧
      (e.parent_id ≠ "root" → resolves nodes e.parent_id = true →
        (regsBucket (buildHierarchyG nodes) e.parent_id e.label).count e.id = 1 ∧
        (∀ p l, ¬(p = e.parent_id ∧ l = e.label) →
          ¬(e.id ∈ regsBucket (buildHierarchyG nodes) p l)) ∧
        (∀ l, ¬(e.id ∈ topBucket (buildHierarchyG nodes) l))) ∧
      (e.parent_id ≠ "root" → resolves nodes e.parent_id = false →
        (∀ l, ¬(e.id ∈ topBucket (buildHierarchyG nodes) l)) ∧
        (∀ p l, ¬(e.id ∈ regsBucket (buildHierarchyG nodes) p l))) := by
  intro e he
  have hinj := nodupMap_inj hids
  have htop : ∀ l, topBucket (buildHierarchyG nodes) l =
      match (nodes.filter (fun n => n.parent_id == "root" && n.label == l)).getLast? with
      | some n => [n.id]
      | none => [] := by
    intro l
    rw [topBucket, buildHierarchyG, top_fold]
    cases (nodes.filter (fun n => n.parent_id == "root" && n.label == l)).getLast? with
    | some n => rfl
    | none => rfl
  have hregs : ∀ p l, regsBucket (buildHierarchyG nodes) p l =
      (nodes.filter (fun n => !(n.parent_id == "root") &&
        resolves nodes n.parent_id && n.parent_id == p && n.label == l)).map
        (fun n => n.id) := by
    intro p l
    rw [regsBucket, buildHierarchyG, regs_fold]
    simp [lookupA, resolves]
  have htopmem : ∀ l (i : String), i ∈ topBucket (buildHierarchyG nodes) l →
      ∃ n, n ∈ nodes ∧ (n.parent_id == "root") = true ∧ n.label = l ∧ n.id = i := by
    intro l i hi
    rw [htop l] at hi
    cases hlast : (nodes.filter (fun n => n.parent_id == "root" && n.label == l)).getLast? with
    | none => rw [hlast] at hi; cases hi
    | some n =>
      rw [hlast] at hi
      have hn := List.mem_filter.mp (mem_of_getLast?' hlast)
      have hni : i = n.id := by simpa using hi
      refine ⟨n, hn.1, ?_, ?_, hni.symm⟩
      · have := hn.2
        simp only [Bool.and_eq_true] at this
        exact this.1
      · have := hn.2
        simp only [Bool.and_eq_true, beq_iff_eq] at this
        exact this.2
  have hregsmem : ∀ p l (i : String), i ∈ regsBucket (buildHierarchyG nodes) p l →
      ∃ n, n ∈ nodes ∧ ¬((n.parent_id == "root") = true) ∧
        resolves nodes n.parent_id = true ∧ n.parent_id = p ∧ n.label = l ∧ n.id = i := by
    intro p l i hi
    rw [hregs p l] at hi
    obtain ⟨n, hnf, hni⟩ := List.mem_map.mp hi
    have hn := List.mem_filter.mp hnf
    have hp := hn.2
    simp only [Bool.and_eq_true, Bool.not_eq_true', beq_iff_eq] at hp
    exact ⟨n, hn.1, by simp [hp.1.1.1], hp.1.1.2, hp.1.2, hp.2, hni⟩
  refine ⟨?_, ?_, ?_⟩
  · intro hroot
    refine ⟨?_, ?_, ?_⟩
    · rw [htop e.label]
      have hfe : nodes.filter (fun n => n.parent_id == "root" && n.label == e.label) = [e] := by
        have hcomp : nodes.filter (fun n => n.parent_id == "root" && n.label == e.label) =
            (nodes.filter (fun n => n.parent_id == "root")).filter
              (fun n => n.label == e.label) := by
          rw [List.filter_filter]
          exact filter_and_comm (fun n => n.parent_id == "root")
            (fun n => n.label == e.label) nodes
        rw [hcomp]
        exact filter_eq_singleton_of_nodup_map hlabels
          (List.mem_filter.mpr ⟨he, by simp [hroot]⟩)
      rw [hfe]
      simp
    · intro l hl hmem
      obtain ⟨n, hn, hnroot, hnlab, hnid⟩ := htopmem l e.id hmem
      have : n = e := hinj n hn e he hnid
      rw [this] at hnlab
      exact hl hnlab.symm
    · intro p l hmem
      obtain ⟨n, hn, hnroot, -, -, -, hnid⟩ := hregsmem p l e.id hmem
      have : n = e := hinj n hn e he hnid
      rw [this] at hnroot
      exact hnroot (by simp [hroot])
  · intro hroot hres
    refine ⟨?_, ?_, ?_⟩
    · rw [hregs e.parent_id e.label]
      have hmem : e ∈ nodes.filter (fun n => !(n.parent_id == "root") &&
          resolves nodes n.parent_id && n.parent_id == e.parent_id &&
          n.label == e.label) :=
        List.mem_filter.mpr ⟨he, by simp [hroot, hres]⟩
      have hnd : ((nodes.filter (fun n => !(n.parent_id == "root") &&
          resolves nodes n.parent_id && n.parent_id == e.parent_id &&
          n.label == e.label)).map (fun n => n.id)).Nodup :=
        List.Nodup.sublist (List.Sublist.map _ (List.filter_sublist nodes)) hids
      exact List.count_eq_one_of_mem hnd (List.mem_map_of_mem _ hmem)
    · intro p l hpl hmem
      obtain ⟨n, hn, -, -, hnp, hnl, hnid⟩ := hregsmem p l e.id hmem
      have : n = e := hinj n hn e he hnid
      rw [this] at hnp hnl
      exact hpl ⟨hnp.symm, hnl.symm⟩
    · intro l hmem
      obtain ⟨n, hn, hnroot, -, hnid⟩ := htopmem l e.id hmem
      have : n = e := hinj n hn e he hnid
      rw [this] at hnroot
      exact hroot (by simpa using hnroot)
  · intro hroot hres
    refine ⟨?_, ?_⟩
    · intro l hmem
      obtain ⟨n, hn, hnroot, -, hnid⟩ := htopmem l e.id hmem
      have : n = e := hinj n hn e he hnid
      rw [this] at hnroot
      exact hroot (by simpa using hnroot)
    · intro p l hmem
      obtain ⟨n, hn, -, hnres, -, -, hnid⟩ := hregsmem p l e.id hmem
      have hne : n = e := hinj n hn e he hnid
      rw [hne, hres] at hnres
      exact Bool.noConfusion hnres

/-- Concrete input for the C1 witness: a root entry, a resolving child and
an orphan. -/
def nodesC1W : List FlatEntry :=
  [⟨"a", "X", some "1", "", "root"⟩,
   ⟨"b", "Y", some "2", "", "a"⟩,
   ⟨"c", "Z", some "3", "", "missing"⟩]

/-- Witness for the amended C1 at a concrete input: the root entry sits
alone in its top-level bucket, the child appears exactly once under its
parent, and the orphan appears nowhere (spot-checked at its own target
bucket). -/
theorem c1_roundtrip_amended_witness :
    topBucket (buildHierarchyG nodesC1W) "X" = ["a"] ∧
    (regsBucket (buildHierarchyG nodesC1W) "a" "Y").count "b" = 1 ∧
    ¬("c" ∈ regsBucket (buildHierarchyG nodesC1W) "missing" "Z") := by
  have h1 := ((c1_roundtrip_amended nodesC1W (by decide) (by decide))
    ⟨"a", "X", some "1", "", "root"⟩ (by decide)).1 rfl
  have h2 := ((c1_roundtrip_amended nodesC1W (by decide) (by decide))
    ⟨"b", "Y", some "2", "", "a"⟩ (by decide)).2.1 (by decide) (by decide)
  have h3 := ((c1_roundtrip_amended nodesC1W (by decide) (by decide))
    ⟨"c", "Z", some "3", "", "missing"⟩ (by decide)).2.2 (by decide) (by decide)
  exact ⟨h1.1, h2.1, h3.2 "missing" "Z"⟩

/-! ## Cross-match region aggregation (src/index.js:576-703)

`collectRegionData` recursively walks a stored per-match `regions`
hierarchy.  For each bucket (in key order) and each region in the bucket's
array (in order) it pushes `parseFloat(region.totalPercent)` — when
`region.totalPercent` is truthy — into `regionData[key].values`, where
`key` is the colon-joined string `id:label:parent_id` (the entry is created
with the region's fields on first encounter), and then recurses into the
region's nested `regions`.  Since each visited node contributes exactly its
own push before its descendants are visited, the walk equals the fold of
the per-node step over the pre-order visit sequence. -/

/-- A node of a stored per-match `regions` hierarchy (the shape produced by
`buildHierarchy`): the entry fields plus a label-keyed map of child
arrays. -/
inductive RNode where
  | mk (id label : String) (totalPercent : Option String) (parent_id : String)
       (regions : List (String × List RNode))

/-- The id of a stored region node. -/
def RNode.id : RNode → String
  | .mk i _ _ _ _ => i

/-- The label of a stored region node. -/
def RNode.label : RNode → String
  | .mk _ l _ _ _ => l

/-- The (optional) percentage string of a stored region node. -/
def RNode.totalPercent : RNode → Option String
  | .mk _ _ tp _ _ => tp

/-- The parent pointer of a stored region node. -/
def RNode.parent_id : RNode → String
  | .mk _ _ _ p _ => p

/-- The nested label-keyed child map of a stored region node. -/
def RNode.regions : RNode → List (String × List RNode)
  | .mk _ _ _ _ rg => rg

/-- Pre-order visit sequence of one region node: the node itself, then the
visits of every bucket's nodes, buckets in key order, arrays in order. -/
def visitNode : RNode → List RNode
  | .mk i l tp pid regs =>
    .mk i l tp pid regs ::
      (regs.attach.map (fun pr =>
        (pr.1.2.attach.map (fun r => visitNode r.1)).flatten)).flatten
termination_by t => sizeOf t
decreasing_by
  rcases pr with ⟨⟨a, b⟩, hmem⟩
  rcases r with ⟨r1, hr⟩
  have h1 := List.sizeOf_lt_of_mem hr
  have h2 := List.sizeOf_lt_of_mem hmem
  simp only [RNode.mk.sizeOf_spec, Prod.mk.sizeOf_spec] at *
  omega

/-- Pre-order visit sequence of a label-keyed map of region arrays (the
iteration order of `collectRegionData`). -/
def visitRegions (regs : List (String × List RNode)) : List RNode :=
  (regs.map (fun pr => (pr.2.map visitNode).flatten)).flatten

/-- Mapping a function through `attach` and flattening forgets the
membership proofs. -/
theorem attach_map_flatten {α β : Type} (l : List α) (f : α → List β) :
    (l.attach.map (fun x => f x.1)).flatten = (l.map f).flatten := by
  rw [List.attach_map_val]

/-- Unfolding of `visitNode` through the accessors. -/
theorem visitNode_def (n : RNode) : visitNode n = n :: visitRegions n.regions := by
  cases n with
  | mk i l tp pid regs =>
    rw [visitNode, visitRegions]
    congr 1
    rw [attach_map_flatten regs
      (fun x => ((x.2.attach.map (fun r => visitNode r.1)).flatten))]
    exact flatten_map_congr (fun c hc => attach_map_flatten c.2 visitNode)

/-- One accumulator entry of `collectRegionData` (`regionData[key]`):
created with the first-encountered region's fields, its `values` list
accumulating every observed percentage at that key. -/
structure RegionAgg where
  key : String
  id : String
  label : String
  parent_id : String
  values : List JSNum
  deriving DecidableEq, Repr

/-- The colon-joined accumulator key
`` `${region.id}:${region.label}:${region.parent_id}` ``. -/
def joinKey (i l p : String) : String := i ++ ":" ++ l ++ ":" ++ p

/-- Push onto `regionData[key].values`, creating
`regionData[key] = {id, label, parent_id, values: []}` first when the key
is absent. -/
def addValue : List RegionAgg → String → String → String → String → JSNum → List RegionAgg
  | [], k, i, l, p, v => [⟨k, i, l, p, [v]⟩]
  | a :: t, k, i, l, p, v =>
    if a.key == k then { a with values := a.values ++ [v] } :: t
    else a :: addValue t k i l p v

/-- The per-node step of `collectRegionData` (src/index.js:639-654): push
the parsed percentage when `region.totalPercent` is truthy. -/
def collectStep (rd : List RegionAgg) (r : RNode) : List RegionAgg :=
  if truthyS r.totalPercent then
    addValue rd (joinKey r.id r.label r.parent_id) r.id r.label r.parent_id
      (parseFloatJS (r.totalPercent.getD ""))
  else rd

/-- Model of `collectRegionData` (src/index.js:635-662): the fold of the
per-node step over the pre-order visit sequence. -/
def collectRegionData (regions : List (String × List RNode)) (rd : List RegionAgg) :
    List RegionAgg :=
  (visitRegions regions).foldl collectStep rd

/-- A per-match haplogroup record (`match.ancestry.haplogroups`). -/
structure Haplos where
  ydna : Option String
  mtdna : Option String
  deriving DecidableEq, Repr

/-- A per-match ancestry record (`match.ancestry`). -/
structure AncestryM where
  haplogroups : Option Haplos
  regions : Option (List (String × List RNode))

/-- An enriched match as consumed by `calculateMatchStatistics`. -/
structure MatchM where
  ancestry : Option AncestryM

/-- The region map walked for one match
(`if (match.ancestry && match.ancestry.regions)`, src/index.js:607-609);
an absent record contributes nothing, modelled as the empty map. -/
def matchRegions (m : MatchM) : List (String × List RNode) :=
  match m.ancestry with
  | some a =>
    match a.regions with
    | some rg => rg
    | none => []
  | none => []

/-- The `regionData` accumulated across all matches
(src/index.js:590-610). -/
def aggRegionData (ms : List MatchM) : List RegionAgg :=
  ms.foldl (fun rd m => collectRegionData (matchRegions m) rd) []

/-- The first accumulator entry with a given key (objects have unique
keys, so this is the entry). -/
def findAgg (rd : List RegionAgg) (k : String) : Option RegionAgg :=
  rd.find? (fun a => a.key == k)

/-- The values stored at a key (empty when the key is absent). -/
def valsAt (rd : List RegionAgg) (k : String) : List JSNum :=
  ((findAgg rd k).map RegionAgg.values).getD []

/-- The percentages a region map contributes at a key, in visit order. -/
def obsRegions (regs : List (String × List RNode)) (k : String) : List JSNum :=
  ((visitRegions regs).filter (fun r => truthyS r.totalPercent &&
    (joinKey r.id r.label r.parent_id == k))).map
    (fun r => parseFloatJS (r.totalPercent.getD ""))

/-- The percentages one match contributes at a key. -/
def matchObs (m : MatchM) (k : String) : List JSNum :=
  obsRegions (matchRegions m) k

/-- The values stored at `k` after `addValue` at `k'`. -/
theorem valsAt_addValue (rd : List RegionAgg) (k' i l p : String) (v : JSNum)
    (k : String) :
    valsAt (addValue rd k' i l p v) k =
      if k = k' then valsAt rd k ++ [v] else valsAt rd k := by
  induction rd with
  | nil =>
    by_cases h : k = k'
    · simp [addValue, valsAt, findAgg, List.find?, h]
    · have h' : ¬((k' == k) = true) := by
        simp only [beq_iff_eq]
        exact fun hh => h hh.symm
      simp [addValue, valsAt, findAgg, List.find?, h, h']
  | cons a t ih =>
    by_cases ha : a.key == k'
    · have hak : a.key = k' := by simpa using ha
      by_cases h : k = k'
      · have hk : (a.key == k) = true := by simp [hak, h]
        simp [addValue, ha, valsAt, findAgg, List.find?, hk, h]
      · have hk : ¬((a.key == k) = true) := by
          simp only [beq_iff_eq, hak]
          exact fun hh => h hh.symm
        simp [addValue, ha, valsAt, findAgg, List.find?, hk, h]
    · by_cases hk : a.key == k
      · have h : ¬(k = k') := by
          intro hh
          rw [hh] at hk
          exact absurd hk ha
        simp [addValue, ha, valsAt, findAgg, List.find?, hk, h]
      · have hmain := ih
        simp only [addValue, if_neg (by exact ha)]
        simp [valsAt, findAgg, List.find?, hk] at hmain ⊢
        exact hmain

/-- The values stored at `k` after folding the per-node step over a visit
sequence: the old values followed by the sequence's contributions at `k`. -/
theorem valsAt_foldVisits (vs : List RNode) (rd : List RegionAgg) (k : String) :
    valsAt (vs.foldl collectStep rd) k =
      valsAt rd k ++ ((vs.filter (fun r => truthyS r.totalPercent &&
        (joinKey r.id r.label r.parent_id == k))).map
        (fun r => parseFloatJS (r.totalPercent.getD ""))) := by
  induction vs generalizing rd with
  | nil => simp
  | cons r t ih =>
    rw [List.foldl_cons, ih, List.filter_cons]
    by_cases htr : truthyS r.totalPercent
    · by_cases hk : (joinKey r.id r.label r.parent_id == k) = true
      · have hke : k = joinKey r.id r.label r.parent_id := by
          have h' : joinKey r.id r.label r.parent_id = k := by simpa using hk
          exact h'.symm
        simp [collectStep, htr, hk, valsAt_addValue, hke]
      · have hkne : ¬(k = joinKey r.id r.label r.parent_id) := by
          intro hh
          exact hk (by simp [hh])
        simp [collectStep, htr, hk, valsAt_addValue, hkne]
    · simp [collectStep, htr]

/-- The values stored at `k` after aggregating a list of matches: each
match appends exactly its own contributions at `k`, in match order. -/
theorem valsAt_agg (ms : List MatchM) (rd : List RegionAgg) (k : String) :
    valsAt (ms.foldl (fun rd m => collectRegionData (matchRegions m) rd) rd) k =
      valsAt rd k ++ ((ms.map (fun m => matchObs m k)).flatten) := by
  induction ms generalizing rd with
  | nil => simp
  | cons m t ih =>
    rw [List.foldl_cons, ih, collectRegionData, valsAt_foldVisits]
    simp [matchObs, obsRegions, List.append_assoc]

/-- Keys present after `addValue`: the old keys plus possibly `k`. -/
theorem mem_keys_addValue (rd : List RegionAgg) (k i l p : String) (v : JSNum)
    (x : String) :
    x ∈ (addValue rd k i l p v).map RegionAgg.key ↔
      x ∈ rd.map RegionAgg.key ∨ x = k := by
  induction rd with
  | nil => simp [addValue]
  | cons b t ih =>
    by_cases hb : b.key == k
    · have hbk : b.key = k := by simpa using hb
      simp only [addValue, if_pos hb, List.map_cons, List.mem_cons]
      constructor
      · intro h
        rcases h with h | h
        · exact Or.inl (Or.inl h)
        · exact Or.inl (Or.inr h)
      · intro h
        rcases h with (h | h) | h
        · exact Or.inl h
        · exact Or.inr h
        · exact Or.inl (by rw [h, hbk])
    · simp only [addValue, if_neg hb, List.map_cons, List.mem_cons, ih]
      constructor
      · intro h
        rcases h with h | h | h
        · exact Or.inl (Or.inl h)
        · exact Or.inl (Or.inr h)
        · exact Or.inr h
      · intro h
        rcases h with (h | h) | h
        · exact Or.inl h
        · exact Or.inr (Or.inl h)
        · exact Or.inr (Or.inr h)

/-- The update `addValue` keeps the accumulator's keys pairwise distinct. -/
theorem keysNodup_addValue {rd : List RegionAgg}
    (h : (rd.map RegionAgg.key).Nodup) (k i l p : String) (v : JSNum) :
    ((addValue rd k i l p v).map RegionAgg.key).Nodup := by
  induction rd with
  | nil => simp [addValue]
  | cons b t ih =>
    simp only [List.map_cons, List.nodup_cons] at h
    obtain ⟨hb, ht⟩ := h
    by_cases hbk : b.key == k
    · simp only [addValue, if_pos hbk, List.map_cons, List.nodup_cons]
      exact ⟨hb, ht⟩
    · simp only [addValue, if_neg hbk, List.map_cons, List.nodup_cons]
      refine ⟨?_, ih ht⟩
      rw [mem_keys_addValue]
      rintro (h | h)
      · exact hb h
      · rw [h] at hbk
        simp at hbk

/-- With pairwise-distinct keys, looking up a member's key finds exactly
that member. -/
theorem findAgg_self {rd : List RegionAgg} (h : (rd.map RegionAgg.key).Nodup)
    {a : RegionAgg} (ha : a ∈ rd) : findAgg rd a.key = some a := by
  induction rd with
  | nil => cases ha
  | cons b t ih =>
    simp only [List.map_cons, List.nodup_cons] at h
    obtain ⟨hb, ht⟩ := h
    rcases List.mem_cons.mp ha with hab | ha'
    · rw [hab]
      simp [findAgg, List.find?]
    · have hne : ¬((b.key == a.key) = true) := by
        simp only [beq_iff_eq]
        intro hh
        exact hb (by rw [hh]; exact List.mem_map_of_mem _ ha')
      simp only [findAgg, List.find?, hne]
      exact ih ht ha'

/-- The per-node step keeps the accumulator's keys pairwise distinct. -/
theorem keysNodup_foldVisits (vs : List RNode) {rd : List RegionAgg}
    (h : (rd.map RegionAgg.key).Nodup) :
    (((vs.foldl collectStep rd)).map RegionAgg.key).Nodup := by
  induction vs generalizing rd with
  | nil => exact h
  | cons r t ih =>
    rw [List.foldl_cons]
    apply ih
    by_cases htr : truthyS r.totalPercent
    · rw [collectStep, if_pos htr]
      exact keysNodup_addValue h _ _ _ _ _
    · rw [collectStep, if_neg htr]
      exact h

/-- The aggregated `regionData` has pairwise-distinct keys. -/
theorem keysNodup_agg (ms : List MatchM) :
    ((aggRegionData ms).map RegionAgg.key).Nodup := by
  rw [aggRegionData]
  have hgen : ∀ (rd : List RegionAgg), (rd.map RegionAgg.key).Nodup →
      ((ms.foldl (fun rd m => collectRegionData (matchRegions m) rd) rd).map
        RegionAgg.key).Nodup := by
    induction ms with
    | nil => intro rd h; exact h
    | cons m t ih =>
      intro rd h
      rw [List.foldl_cons]
      exact ih _ (keysNodup_foldVisits _ h)
  exact hgen [] (by simp)

/-- One node of the averaged region array
(src/index.js:669-674): the entry fields plus the `toFixed(2)` average. -/
structure AvgRegion where
  id : String
  label : String
  parent_id : String
  average : String
  deriving DecidableEq, Repr

/-- The `regionsArray` of `buildAverageRegionHierarchy`
(src/index.js:669-674): per accumulator entry, its fields and
`(values.reduce((a, b) => a + b, 0) / totalMatches).toFixed(2)`. -/
def regionsArray (rd : List RegionAgg) (totalMatches : Nat) : List AvgRegion :=
  rd.map (fun a => ⟨a.id, a.label, a.parent_id,
    jsToFixed 2 (jsDiv (jsSum a.values) totalMatches)⟩)

/-! ### Claim theorems: C2 -/

/-- The percentages one match contributes at an exact `(id, label,
parent_id)` triple (the claim's reading, which ignores the joined-key
encoding). -/
def obsTriple (m : MatchM) (i l p : String) : List JSNum :=
  ((visitRegions (matchRegions m)).filter (fun r => truthyS r.totalPercent &&
    r.id == i && r.label == l && r.parent_id == p)).map
    (fun r => parseFloatJS (r.totalPercent.getD ""))

/-- Input refuting C2 as stated: one match with the two distinct triples
`("x:y", "z", "root")` and `("x", "y:z", "root")`, whose colon-joined keys
coincide (`"x:y:z:root"`). -/
def mC2 : MatchM :=
  ⟨some ⟨none, some [("z", [RNode.mk "x:y" "z" (some "40") "root" []]),
                     ("y:z", [RNode.mk "x" "y:z" (some "60") "root" []])]⟩⟩

/-- The single-match batch refuting C2 as stated. -/
def msC2 : List MatchM := [mC2]

/-- Counterexample to C2 as stated: the accumulator merges the two
distinct triples because their colon-joined keys coincide, so the average
reported for the node `("x:y", "z", "root")` is `"100.00"`
(`(40+60)/1`), not the `"40.00"` the per-triple claim demands. -/
theorem c2_region_averaging_counterexample :
    ¬(∀ a ∈ aggRegionData msC2,
      (⟨a.id, a.label, a.parent_id,
        jsToFixed 2 (jsDiv (jsSum ((msC2.map
          (fun m => obsTriple m a.id a.label a.parent_id)).flatten))
          msC2.length)⟩ : AvgRegion) ∈
        regionsArray (aggRegionData msC2) msC2.length) := by
  intro h
  have hvis : visitRegions (matchRegions mC2) =
      [RNode.mk "x:y" "z" (some "40") "root" [],
       RNode.mk "x" "y:z" (some "60") "root" []] := by
    simp [matchRegions, mC2, visitRegions, visitNode_def, RNode.regions]
  have hagg : aggRegionData msC2 =
      [⟨"x:y:z:root", "x:y", "z", "root", [some ⟨40, 1⟩, some ⟨60, 1⟩]⟩] := by
    rw [aggRegionData, msC2, List.foldl_cons, List.foldl_nil, collectRegionData, hvis]
    decide
  have hmem : (⟨"x:y:z:root", "x:y", "z", "root",
      [some ⟨40, 1⟩, some ⟨60, 1⟩]⟩ : RegionAgg) ∈ aggRegionData msC2 := by
    rw [hagg]
    exact List.mem_cons_self _ _
  have hc := h _ hmem
  rw [hagg] at hc
  simp only [msC2, List.map_cons, List.map_nil, obsTriple, hvis] at hc
  exact absurd hc (by decide)

/-- C2, amended: the accumulator is keyed on the colon-joined string
`id:label:parentId` (distinct triples whose joined keys coincide are
merged into one node carrying the first-encountered fields).  Per
accumulator node, the stored values are exactly the concatenation, in
match order, of each match's contributions at that key (a match lacking
the key contributes nothing), and the averaged array contains the node
whose average is the sum of those values divided by the *total match
count* — not the count of contributing matches — fixed to 2 decimal
places (NaN propagating for unparsable percentages). -/
theorem c2_region_averaging_amended (ms : List MatchM) :
    ∀ a ∈ aggRegionData ms,
      a.values = ((ms.map (fun m => matchObs m a.key)).flatten) ∧
      (⟨a.id, a.label, a.parent_id,
        jsToFixed 2 (jsDiv (jsSum ((ms.map (fun m => matchObs m a.key)).flatten))
          ms.length)⟩ : AvgRegion) ∈
        regionsArray (aggRegionData ms) ms.length := by
  intro a ha
  have hkeys := keysNodup_agg ms
  have hv : a.values = valsAt (aggRegionData ms) a.key := by
    rw [valsAt, findAgg_self hkeys ha]
    rfl
  have hobs : valsAt (aggRegionData ms) a.key =
      ((ms.map (fun m => matchObs m a.key)).flatten) := by
    rw [aggRegionData, valsAt_agg]
    simp [valsAt, findAgg]
  constructor
  · rw [hv, hobs]
  · have hmm : (⟨a.id, a.label, a.parent_id,
        jsToFixed 2 (jsDiv (jsSum a.values) ms.length)⟩ : AvgRegion) ∈
        regionsArray (aggRegionData ms) ms.length := by
      rw [regionsArray]
      exact List.mem_map_of_mem _ ha
    rw [hv.trans hobs] at hmm
    exact hmm

/-- A match whose only region is Europe at the given percentage. -/
def mEurope (tp : String) : MatchM :=
  ⟨some ⟨none, some [("Europe", [RNode.mk "E" "Europe" (some tp) "root" []])]⟩⟩

/-- The spec's averaging example: Europe at 40 and 60 in two matches, a
third match with no regions. -/
def msC2W : List MatchM := [mEurope "40", mEurope "60", ⟨none⟩]

/-- Witness for the amended C2 at the spec's example: the averaged array
reports Europe at `"33.33"` (100.00 / 3), not `"50.00"`. -/
theorem c2_region_averaging_amended_witness :
    (⟨"E", "Europe", "root", "33.33"⟩ : AvgRegion) ∈
      regionsArray (aggRegionData msC2W) msC2W.length := by
  have hv40 : visitRegions (matchRegions (mEurope "40")) =
      [RNode.mk "E" "Europe" (some "40") "root" []] := by
    simp [matchRegions, mEurope, visitRegions, visitNode_def, RNode.regions]
  have hv60 : visitRegions (matchRegions (mEurope "60")) =
      [RNode.mk "E" "Europe" (some "60") "root" []] := by
    simp [matchRegions, mEurope, visitRegions, visitNode_def, RNode.regions]
  have hagg : aggRegionData msC2W =
      [⟨"E:Europe:root", "E", "Europe", "root", [some ⟨40, 1⟩, some ⟨60, 1⟩]⟩] := by
    rw [aggRegionData, msC2W, List.foldl_cons, List.foldl_cons, List.foldl_cons,
      List.foldl_nil, collectRegionData, collectRegionData, collectRegionData, hv40, hv60]
    rw [show visitRegions (matchRegions (⟨none⟩ : MatchM)) = [] from rfl]
    decide
  have hmem : (⟨"E:Europe:root", "E", "Europe", "root",
      [some ⟨40, 1⟩, some ⟨60, 1⟩]⟩ : RegionAgg) ∈ aggRegionData msC2W := by
    rw [hagg]
    exact List.mem_cons_self _ _
  have h := (c2_region_averaging_amended msC2W _ hmem).2
  have heval : jsToFixed 2 (jsDiv (jsSum ((msC2W.map
      (fun m => matchObs m "E:Europe:root")).flatten)) msC2W.length) = "33.33" := by
    simp only [msC2W, List.map_cons, List.map_nil, matchObs, obsRegions, hv40, hv60]
    rw [show visitRegions (matchRegions (⟨none⟩ : MatchM)) = [] from rfl]
    decide
  rw [heval] at h
  exact h

/-! ## The averaged hierarchy (src/index.js:676-702)

`buildAverageRegionHierarchy` rebuilds a hierarchy from `regionsArray`
exactly the way `buildHierarchy` does from the flat entries — an id index
built first, then a second pass dispatching on `parent_id === 'root'`
versus a resolving parent — except that top-level attachment *pushes*
(`result[label].push(node)`) instead of assigning. -/

/-- The object graph built by `buildAverageRegionHierarchy`: top-level
buckets (`result[label]`) and per-parent child buckets
(`nodeMap[p].children[label]`), both holding node ids. -/
structure AGraph where
  top : List (String × List String)
  children : List ((String × String) × List String)
  deriving DecidableEq, Repr

/-- The id index of `buildAverageRegionHierarchy` (src/index.js:677-680). -/
def avgNodeMap (arr : List AvgRegion) : List (String × AvgRegion) :=
  arr.foldl (fun m r => setA m r.id r) []

/-- One iteration of the attachment pass of `buildAverageRegionHierarchy`
(src/index.js:683-700): a root node is pushed onto `result[label]`, a node
whose parent resolves is pushed onto `parent.children[label]`, anything
else is dropped. -/
def avgStep (nm : List (String × AvgRegion)) (st : AGraph) (r : AvgRegion) : AGraph :=
  if r.parent_id == "root" then
    { st with top := pushA st.top r.label r.id }
  else
    match lookupA nm r.parent_id with
    | some _ => { st with children := pushA st.children (r.parent_id, r.label) r.id }
    | none => st

/-- Model of `buildAverageRegionHierarchy`'s hierarchy reconstruction. -/
def buildAverageRegionHierarchyG (arr : List AvgRegion) : AGraph :=
  arr.foldl (avgStep (avgNodeMap arr)) ⟨[], []⟩

/-- The array `result[l]` of the averaged hierarchy. -/
def avgTopBucket (st : AGraph) (l : String) : List String :=
  (lookupA st.top l).getD []

/-- The array `nodeMap[p].children[l]` of the averaged hierarchy. -/
def avgChildBucket (st : AGraph) (p l : String) : List String :=
  (lookupA st.children (p, l)).getD []

/-- Resolution of a parent id against the averaged id index. -/
def resolvesAvg (arr : List AvgRegion) (p : String) : Bool :=
  (lookupA (avgNodeMap arr) p).isSome

/-- Attachment pass, top-level buckets: `result[l]` collects the ids of
the root nodes labelled `l`, in array order (push appends). -/
theorem avgTop_fold (nm : List (String × AvgRegion)) (rs : List AvgRegion)
    (st : AGraph) (l : String) :
    (lookupA (rs.foldl (avgStep nm) st).top l).getD [] =
      (lookupA st.top l).getD [] ++
        ((rs.filter (fun r => r.parent_id == "root" && r.label == l)).map
          (fun r => r.id)) := by
  induction rs generalizing st with
  | nil => simp
  | cons r t ih =>
    rw [List.foldl_cons, ih, List.filter_cons]
    by_cases hroot : r.parent_id == "root"
    · have hstep : avgStep nm st r = { st with top := pushA st.top r.label r.id } := by
        simp [avgStep, hroot]
      by_cases hl : r.label == l
      · have hle : r.label = l := by simpa using hl
        rw [hstep]
        simp only [lookupA_pushA, hle, if_pos rfl]
        simp [hroot, hl]
      · have hlab : ¬(l = r.label) := by
          intro h
          rw [h] at hl
          simp at hl
        rw [hstep]
        simp only [lookupA_pushA, if_neg hlab]
        simp [hl]
    · cases hnm : lookupA nm r.parent_id with
      | none => simp [avgStep, hroot, hnm]
      | some w => simp [avgStep, hroot, hnm]

/-- Attachment pass, child buckets: `nodeMap[p].children[l]` collects the
ids of the non-root nodes with parent `p` and label `l` whose parent
resolves, in array order. -/
theorem avgChildren_fold (nm : List (String × AvgRegion)) (rs : List AvgRegion)
    (st : AGraph) (p l : String) :
    (lookupA (rs.foldl (avgStep nm) st).children (p, l)).getD [] =
      (lookupA st.children (p, l)).getD [] ++
        ((rs.filter (fun r => !(r.parent_id == "root") &&
          (lookupA nm r.parent_id).isSome && r.parent_id == p && r.label == l)).map
          (fun r => r.id)) := by
  induction rs generalizing st with
  | nil => simp
  | cons r t ih =>
    rw [List.foldl_cons, ih, List.filter_cons]
    by_cases hroot : r.parent_id == "root"
    · simp [avgStep, hroot]
    · cases hnm : lookupA nm r.parent_id with
      | none => simp [avgStep, hroot, hnm]
      | some w =>
        have hstep : avgStep nm st r =
            { st with children := pushA st.children (r.parent_id, r.label) r.id } := by
          simp [avgStep, hroot, hnm]
        by_cases hp : r.parent_id == p
        · by_cases hl : r.label == l
          · have hpe : r.parent_id = p := by simpa using hp
            have hle : r.label = l := by simpa using hl
            have hrootp : ¬(p = "root") := by
              rw [← hpe]
              simpa using hroot
            rw [hstep]
            simp only [lookupA_pushA, hpe, hle, if_pos rfl]
            simp [hroot, hnm, hp, hl, hrootp]
          · have hkeys : ¬((p, l) = (r.parent_id, r.label)) := by
              intro h
              rw [Prod.mk.injEq] at h
              rw [h.2] at hl
              simp at hl
            rw [hstep]
            simp only [lookupA_pushA, if_neg hkeys]
            simp [hl]
        · have hkeys : ¬((p, l) = (r.parent_id, r.label)) := by
            intro h
            rw [Prod.mk.injEq] at h
            rw [h.1] at hp
            simp at hp
          rw [hstep]
          simp only [lookupA_pushA, if_neg hkeys]
          simp [hp]

/-! ### Claim theorems: C3 -/

/-- C3: the averaged tree has the per-match Hierarchy shape — a node with
`parent_id = "root"` goes top-level under its label, any other node goes
under the parent resolved by the id index (unresolved parents are
dropped), exactly the dispatch rule of `buildHierarchy` — and every node's
value is the accumulated sum at its key divided by the total match count,
rounded to 2 decimal places as a string. -/
theorem c3_average_hierarchy_shape (ms : List MatchM) :
    (∀ l, avgTopBucket (buildAverageRegionHierarchyG
        (regionsArray (aggRegionData ms) ms.length)) l =
      ((regionsArray (aggRegionData ms) ms.length).filter
        (fun r => r.parent_id == "root" && r.label == l)).map (fun r => r.id)) ∧
    (∀ p l, avgChildBucket (buildAverageRegionHierarchyG
        (regionsArray (aggRegionData ms) ms.length)) p l =
      ((regionsArray (aggRegionData ms) ms.length).filter
        (fun r => !(r.parent_id == "root") &&
          resolvesAvg (regionsArray (aggRegionData ms) ms.length) r.parent_id &&
          r.parent_id == p && r.label == l)).map (fun r => r.id)) ∧
    (∀ r ∈ regionsArray (aggRegionData ms) ms.length,
      ∃ a ∈ aggRegionData ms, r.id = a.id ∧ r.label = a.label ∧
        r.parent_id = a.parent_id ∧
        r.average = jsToFixed 2 (jsDiv (jsSum ((ms.map
          (fun m => matchObs m a.key)).flatten)) ms.length)) := by
  refine ⟨?_, ?_, ?_⟩
  · intro l
    rw [avgTopBucket, buildAverageRegionHierarchyG, avgTop_fold]
    simp [lookupA]
  · intro p l
    rw [avgChildBucket, buildAverageRegionHierarchyG, avgChildren_fold]
    simp [lookupA, resolvesAvg]
  · intro r hr
    rw [regionsArray] at hr
    obtain ⟨a, ha, hra⟩ := List.mem_map.mp hr
    have hkeys := keysNodup_agg ms
    have hv : a.values = valsAt (aggRegionData ms) a.key := by
      rw [valsAt, findAgg_self hkeys ha]
      rfl
    have hobs : valsAt (aggRegionData ms) a.key =
        ((ms.map (fun m => matchObs m a.key)).flatten) := by
      rw [aggRegionData, valsAt_agg]
      simp [valsAt, findAgg]
    refine ⟨a, ha, ?_, ?_, ?_, ?_⟩
    · rw [← hra]
    · rw [← hra]
    · rw [← hra]
    · rw [← hra]
      show jsToFixed 2 (jsDiv (jsSum a.values) ms.length) = _
      rw [hv, hobs]

/-- The concrete match for the C3 witness: Europe at 50 with nested
France at 25. -/
def mC3W : MatchM :=
  ⟨some ⟨none, some [("Europe", [RNode.mk "E" "Europe" (some "50") "root"
    [("France", [RNode.mk "F" "France" (some "25") "E" []])]])]⟩⟩

/-- The single-match batch for the C3 witness. -/
def msC3W : List MatchM := [mC3W]

/-- Witness for C3 at a concrete input: the root node lands top-level
under `Europe`, the child lands under its parent's `France` bucket, and
the root node's reported value is `"50.00"` derived from its observed
values. -/
theorem c3_average_hierarchy_shape_witness :
    avgTopBucket (buildAverageRegionHierarchyG
      (regionsArray (aggRegionData msC3W) msC3W.length)) "Europe" = ["E"] ∧
    avgChildBucket (buildAverageRegionHierarchyG
      (regionsArray (aggRegionData msC3W) msC3W.length)) "E" "France" = ["F"] ∧
    ∃ a ∈ aggRegionData msC3W,
      (⟨"E", "Europe", "root", "50.00"⟩ : AvgRegion).id = a.id ∧
      (⟨"E", "Europe", "root", "50.00"⟩ : AvgRegion).label = a.label ∧
      (⟨"E", "Europe", "root", "50.00"⟩ : AvgRegion).parent_id = a.parent_id ∧
      (⟨"E", "Europe", "root", "50.00"⟩ : AvgRegion).average =
        jsToFixed 2 (jsDiv (jsSum ((msC3W.map
          (fun m => matchObs m a.key)).flatten)) msC3W.length) := by
  have hvis : visitRegions (matchRegions mC3W) =
      [RNode.mk "E" "Europe" (some "50") "root"
        [("France", [RNode.mk "F" "France" (some "25") "E" []])],
       RNode.mk "F" "France" (some "25") "E" []] := by
    simp [matchRegions, mC3W, visitRegions, visitNode_def, RNode.regions]
  have hagg : aggRegionData msC3W =
      [⟨"E:Europe:root", "E", "Europe", "root", [some ⟨50, 1⟩]⟩,
       ⟨"F:France:E", "F", "France", "E", [some ⟨25, 1⟩]⟩] := by
    rw [aggRegionData, msC3W, List.foldl_cons, List.foldl_nil, collectRegionData, hvis]
    decide
  refine ⟨?_, ?_, ?_⟩
  · rw [(c3_average_hierarchy_shape msC3W).1 "Europe", hagg]
    decide
  · rw [(c3_average_hierarchy_shape msC3W).2.1 "E" "France", hagg]
    decide
  · exact (c3_average_hierarchy_shape msC3W).2.2 ⟨"E", "Europe", "root", "50.00"⟩
      (by rw [hagg]; decide)

/-! ## Y-DNA frequency statistics (src/index.js:576-632)

`calculateMatchStatistics` tallies, per exact (untrimmed) Y-DNA string, the
matches whose `ydna` is truthy and non-blank after trimming, and counts
those matches in `matchesWithYDNA`.  `mostCommonYDNA` sorts the tally
descending by count (JS `sort` with comparator `b - a` is stable, modelled
by a stable insertion sort), takes the top 10, and reports
`((count / matchesWithYDNA) * 100).toFixed(1)` — guarded to `"0.0"` when
`matchesWithYDNA` is zero.  (JS object key order would list integer-like
haplogroup strings first in `Object.entries`; no claim depends on the
order, only on membership.) -/

/-- The Y-DNA value reachable from a match
(`match.ancestry.haplogroups.ydna`); `none` when any link is absent, which
is exactly when the truthiness guard fails. -/
def ydnaVal (m : MatchM) : Option String :=
  match m.ancestry with
  | some a =>
    match a.haplogroups with
    | some h => h.ydna
    | none => none
  | none => none

/-- The counting guard `ydna && ydna.trim() !== ''` (src/index.js:596). -/
def hasYdna (m : MatchM) : Bool :=
  truthyS (ydnaVal m) && !(trimJS ((ydnaVal m).getD "") == "")

/-- Increment `table[k] = (table[k] || 0) + 1` on a JS-object association list. -/
def bumpCount : List (String × Nat) → String → List (String × Nat)
  | [], k => [(k, 1)]
  | p :: t, k => if p.1 == k then (p.1, p.2 + 1) :: t else p :: bumpCount t k

/-- One iteration of the Y-DNA tally loop (src/index.js:596-599): the
state is the pair (count table, `matchesWithYDNA`). -/
def ydnaStep (acc : List (String × Nat) × Nat) (m : MatchM) :
    List (String × Nat) × Nat :=
  if hasYdna m then (bumpCount acc.1 ((ydnaVal m).getD ""), acc.2 + 1) else acc

/-- The Y-DNA tally over all matches. -/
def ydnaTally (ms : List MatchM) : List (String × Nat) × Nat :=
  ms.foldl ydnaStep ([], 0)

/-- Stable descending insertion (by count) of one tally entry: the entry
goes before the first entry with a count less than or equal to its own. -/
def insertDesc (x : String × Nat) : List (String × Nat) → List (String × Nat)
  | [] => [x]
  | y :: t => if y.2 ≤ x.2 then x :: y :: t else y :: insertDesc x t

/-- Stable descending sort by count: the result of the stable JS
`sort(([,a],[,b]) => b - a)`. -/
def sortDesc : List (String × Nat) → List (String × Nat)
  | [] => []
  | x :: t => insertDesc x (sortDesc t)

/-- One reported `mostCommonYDNA` entry. -/
structure HapStat where
  haplogroup : String
  count : Nat
  percentage : String
  deriving DecidableEq, Repr

/-- Model of `stats.mostCommonYDNA` (src/index.js:617-624). -/
def mostCommonYDNA (ms : List MatchM) : List HapStat :=
  ((sortDesc (ydnaTally ms).1).take 10).map
    (fun p => ⟨p.1, p.2,
      if 0 < (ydnaTally ms).2 then
        (((⟨(p.2 : Int), 1⟩ : Frac).divNat (ydnaTally ms).2).mulNat 100).toFixed 1
      else "0.0"⟩)

/-- The counter `matchesWithYDNA` counts exactly the matches passing the guard. -/
theorem ydnaTally_base (ms : List MatchM) (acc : List (String × Nat) × Nat) :
    (ms.foldl ydnaStep acc).2 = acc.2 + ms.countP hasYdna := by
  induction ms generalizing acc with
  | nil => simp
  | cons m t ih =>
    rw [List.foldl_cons, ih, List.countP_cons]
    by_cases h : hasYdna m <;> simp [ydnaStep, h] <;> omega

/-- With no qualifying match the tally state is untouched. -/
theorem ydnaTally_of_countP_zero (ms : List MatchM) (acc : List (String × Nat) × Nat)
    (h : ms.countP hasYdna = 0) : ms.foldl ydnaStep acc = acc := by
  induction ms generalizing acc with
  | nil => rfl
  | cons m t ih =>
    rw [List.countP_cons] at h
    have hm : ¬(hasYdna m = true) := by
      intro hh
      rw [hh] at h
      simp at h
    rw [if_neg hm] at h
    rw [List.foldl_cons, show ydnaStep acc m = acc from by simp [ydnaStep, hm]]
    exact ih acc (by omega)

/-- A non-empty final count table forces a qualifying match (unless the
initial table was non-empty). -/
theorem ydnaTally_counts_nonempty (ms : List MatchM) (acc : List (String × Nat) × Nat)
    (h : (ms.foldl ydnaStep acc).1 ≠ []) :
    acc.1 ≠ [] ∨ 0 < ms.countP hasYdna := by
  induction ms generalizing acc with
  | nil => exact Or.inl h
  | cons m t ih =>
    rw [List.foldl_cons] at h
    rcases ih _ h with h' | h'
    · by_cases hm : hasYdna m
      · right
        rw [List.countP_cons]
        simp [hm]
      · left
        simpa [ydnaStep, hm] using h'
    · right
      rw [List.countP_cons]
      omega

/-- Membership through the stable insertion. -/
theorem mem_insertDesc (x a : String × Nat) (l : List (String × Nat)) :
    a ∈ insertDesc x l ↔ a = x ∨ a ∈ l := by
  induction l with
  | nil => simp [insertDesc]
  | cons y t ih =>
    by_cases h : y.2 ≤ x.2
    · simp [insertDesc, h]
    · simp only [insertDesc, if_neg h, List.mem_cons, ih]
      tauto

/-- Membership through the stable sort. -/
theorem mem_sortDesc (a : String × Nat) (l : List (String × Nat)) :
    a ∈ sortDesc l ↔ a ∈ l := by
  induction l with
  | nil => simp [sortDesc]
  | cons x t ih =>
    simp [sortDesc, mem_insertDesc, ih]

/-! ### Claim theorems: C4 -/

/-- C4: every reported `mostCommonYDNA` entry's percentage is its count
divided by the number of matches contributing a non-empty (after
trimming) Y-DNA value — not the total match count — times 100 to one
decimal place; and a reported entry forces that denominator to be
positive, while a zero denominator forces the report empty, so the
division by zero the `"0.0"` guard protects against is never exercised. -/
theorem c4_ydna_percentage_base (ms : List MatchM) :
    (∀ e ∈ mostCommonYDNA ms,
      0 < ms.countP hasYdna ∧
      e.percentage = (((⟨(e.count : Int), 1⟩ : Frac).divNat
        (ms.countP hasYdna)).mulNat 100).toFixed 1) ∧
    (ms.countP hasYdna = 0 → mostCommonYDNA ms = []) := by
  constructor
  · intro e he
    obtain ⟨p, hp, hfp⟩ := List.mem_map.mp he
    have hpt : p ∈ sortDesc (ydnaTally ms).1 := List.take_subset _ _ hp
    have hpl : p ∈ (ydnaTally ms).1 := (mem_sortDesc _ _).mp hpt
    have hne : (ydnaTally ms).1 ≠ [] := by
      intro hnil
      rw [hnil] at hpl
      cases hpl
    have hbase : 0 < ms.countP hasYdna := by
      rcases ydnaTally_counts_nonempty ms ([], 0) hne with h | h
      · exact absurd rfl h
      · exact h
    have hb2 : (ydnaTally ms).2 = ms.countP hasYdna := by
      rw [ydnaTally, ydnaTally_base]
      simp
    refine ⟨hbase, ?_⟩
    rw [← hfp]
    show (if 0 < (ydnaTally ms).2 then
        (((⟨(p.2 : Int), 1⟩ : Frac).divNat (ydnaTally ms).2).mulNat 100).toFixed 1
      else "0.0") = _
    rw [hb2, if_pos hbase]
  · intro h0
    rw [mostCommonYDNA, ydnaTally, ydnaTally_of_countP_zero ms ([], 0) h0]
    simp [sortDesc]

/-- A match carrying the given Y-DNA value (and nothing else). -/
def mYdna (v : String) : MatchM := ⟨some ⟨some ⟨some v, none⟩, none⟩⟩

/-- The spec's percentage-base example: ten matches, four with a Y-DNA
value (one of them `R1b`), one with the empty (female) Y-DNA, five with no
ancestry at all. -/
def msC4W : List MatchM :=
  [mYdna "R1b", mYdna "I1", mYdna "J2", mYdna "G2a", mYdna "",
   ⟨none⟩, ⟨none⟩, ⟨none⟩, ⟨none⟩, ⟨none⟩]

/-- Witness for C4 at the spec's example: `R1b` is reported at count 1
with percentage `"25.0"` (1/4 of the four contributing matches, not 1/10
of the batch). -/
theorem c4_ydna_percentage_base_witness :
    msC4W.countP hasYdna = 4 ∧
    0 < msC4W.countP hasYdna ∧
    (⟨"R1b", 1, "25.0"⟩ : HapStat).percentage =
      (((⟨((⟨"R1b", 1, "25.0"⟩ : HapStat).count : Int), 1⟩ : Frac).divNat
        (msC4W.countP hasYdna)).mulNat 100).toFixed 1 := by
  refine ⟨by decide, ?_⟩
  exact (c4_ydna_percentage_base msC4W).1 ⟨"R1b", 1, "25.0"⟩ (by decide)

end MatchFetch
